import Mathlib

/-!
Verification of the retrieval-chunking core of the deepEvalExample repository.

The chunker `split_into_chunks` and the retriever are embedded shallowly:
Python strings become `List Char`, `str.split "."` becomes `splitOnDot`,
`str.strip` becomes `stripChars`, and the retriever works over exact
integer-coordinate embedding vectors, on which cosine similarities are
compared exactly.
-/

/-- Python `str.split "."` on a list of characters: splits at every period,
dropping the separator.  `splitDots l acc` carries the (reversed) pending
fragment `acc`; like Python, splitting the empty string yields `[[]]`. -/
def splitDots : List Char → List Char → List (List Char)
  | [], acc => [acc.reverse]
  | c :: cs, acc =>
    if c = '.' then acc.reverse :: splitDots cs []
    else splitDots cs (c :: acc)

/-- `text.split "."` from the source, as a function of the text alone. -/
def splitOnDot (text : List Char) : List (List Char) :=
  splitDots text []

/-- Python `str.strip`: remove leading and trailing whitespace characters. -/
def stripChars (l : List Char) : List Char :=
  ((l.dropWhile Char.isWhitespace).reverse.dropWhile Char.isWhitespace).reverse

/-- The loop body of `split_into_chunks` (deepDocGevalGolden.py lines 53-60):
for each sentence fragment, either extend the accumulator `current` with the
fragment plus a re-appended period (when the combined length stays strictly
under `t`), or flush the stripped accumulator as a chunk and restart the
accumulator from the fragment; after the loop a non-empty accumulator is
flushed as a final chunk. -/
def chunkLoop (t : Nat) (acc : List (List Char)) (current : List Char) :
    List (List Char) → List (List Char)
  | [] => if current = [] then acc else acc ++ [stripChars current]
  | s :: rest =>
    if current.length + s.length < t then
      chunkLoop t acc (current ++ s ++ ['.']) rest
    else
      chunkLoop t (acc ++ [stripChars current]) (s ++ ['.']) rest

/-- `split_into_chunks` from deepDocGevalGolden.py lines 49-61 (repeated
verbatim in deepDocTestCase.py lines 21-33): split the text on periods and
greedily regroup the fragments under the `chunk_size` threshold.  The source
calls it with the default `chunk_size = 100`. -/
def split_into_chunks (text : List Char) (chunk_size : Nat) : List (List Char) :=
  chunkLoop chunk_size [] [] (splitOnDot text)

example : split_into_chunks ("A is a. B is b. C is c.".toList) 100 =
    ["A is a. B is b. C is c..".toList] := by decide

example : split_into_chunks ("A is a. B is b. C is c.".toList) 8 =
    ["A is a.".toList, "B is b.".toList, "C is c.".toList, ['.']] := by decide

example : split_into_chunks [] 100 = [['.']] := by decide

example : split_into_chunks ("abc".toList) 3 = [[], "abc.".toList] := by decide

example : split_into_chunks ("hello".toList) 100 = ["hello.".toList] := by decide

theorem splitDots_ne_nil : ∀ (l acc : List Char), splitDots l acc ≠ []
  | [], _ => by simp [splitDots]
  | c :: cs, acc => by
    by_cases h : c = '.' <;> simp [splitDots, h]
    exact splitDots_ne_nil cs (c :: acc)

theorem splitOnDot_ne_nil (text : List Char) : splitOnDot text ≠ [] :=
  splitDots_ne_nil text []

theorem chunkLoop_ne_nil (t : Nat) :
    ∀ (l : List (List Char)) (acc : List (List Char)) (current : List Char),
      l ≠ [] ∨ current ≠ [] ∨ acc ≠ [] → chunkLoop t acc current l ≠ []
  | [], acc, current, h => by
    rcases h with h | h | h
    · exact absurd rfl h
    · simp [chunkLoop, h]
    · by_cases hc : current = [] <;> simp [chunkLoop, hc, h]
  | s :: rest, acc, current, _ => by
    by_cases h : current.length + s.length < t
    · simpa [chunkLoop, h] using
        chunkLoop_ne_nil t rest acc (current ++ s ++ ['.']) (Or.inr (Or.inl (by simp)))
    · simpa [chunkLoop, h] using
        chunkLoop_ne_nil t rest (acc ++ [stripChars current]) (s ++ ['.'])
          (Or.inr (Or.inr (by simp)))

theorem splitDots_of_not_mem :
    ∀ (l acc : List Char), '.' ∉ l → splitDots l acc = [acc.reverse ++ l]
  | [], acc, _ => by simp [splitDots]
  | c :: cs, acc, h => by
    have hc : c ≠ '.' := fun hcc => h (hcc ▸ List.mem_cons_self c cs)
    have hcs : '.' ∉ cs := fun hm => h (List.mem_cons_of_mem c hm)
    simp [splitDots, hc, splitDots_of_not_mem cs (c :: acc) hcs]

/-- Claim C1 (counterexample): on `"A is a. B is b. C is c."` the source
chunker does NOT return the single chunk `"A is a. B is b. C is c."` at
threshold 100 (the empty fragment after the final period re-appends an extra
period), and at threshold 8 it does NOT return three chunks (the trailing
empty fragment is flushed as a fourth chunk `"."`). -/
theorem scenario_chunks_counterexample :
    split_into_chunks ("A is a. B is b. C is c.".toList) 100 ≠
      ["A is a. B is b. C is c.".toList] ∧
    (split_into_chunks ("A is a. B is b. C is c.".toList) 8).length ≠ 3 := by
  decide

/-- Claim C1 (amended): on `"A is a. B is b. C is c."` the chunker returns,
at threshold 100, the single chunk `"A is a. B is b. C is c.."` (with a
doubled final period), and at threshold 8 the four chunks `"A is a."`,
`"B is b."`, `"C is c."` and `"."`, the first three being single sentences. -/
theorem scenario_chunks_actual :
    split_into_chunks ("A is a. B is b. C is c.".toList) 100 =
      ["A is a. B is b. C is c..".toList] ∧
    split_into_chunks ("A is a. B is b. C is c.".toList) 8 =
      ["A is a.".toList, "B is b.".toList, "C is c.".toList, ['.']] := by
  decide

/-- Claim C4 (counterexample): `split_into_chunks` on the empty document
(at the source's default threshold 100) does not return an empty sequence. -/
theorem empty_doc_counterexample : split_into_chunks [] 100 ≠ [] := by
  decide

/-- Claim C4 (amended): on the empty document, for every positive threshold,
`split_into_chunks` returns the single chunk `"."`: Python splits `""` into
the one empty fragment `""`, the loop appends a period to it, and the
resulting accumulator `"."` is flushed as a chunk. -/
theorem empty_doc_single_dot (t : Nat) (h : 0 < t) :
    split_into_chunks [] t = [['.']] := by
  have hstep : (0:Nat) + 0 < t := h
  simp [split_into_chunks, splitOnDot, splitDots, chunkLoop, hstep, stripChars]

/-- Claim C4 (amended, witness): at the source's default threshold 100 the
empty document produces exactly the chunk `"."`. -/
theorem empty_doc_single_dot_witness : split_into_chunks [] 100 = [['.']] :=
  empty_doc_single_dot 100 (by decide)

/-- Claim C6 (counterexample): `"hello"` has no period, yet the single chunk
returned at the default threshold 100 is `"hello."` — the document with a
period appended — not the document itself. -/
theorem no_period_counterexample :
    ("hello".toList ≠ ([] : List Char)) ∧ '.' ∉ "hello".toList ∧
    split_into_chunks ("hello".toList) 100 ≠ ["hello".toList] := by
  decide

/-- Claim C6 (amended): a non-empty document without a period whose length is
strictly below the threshold becomes exactly one chunk, namely the document
with a period appended and surrounding whitespace stripped.  (If its length
reaches the threshold, an empty chunk is flushed before it instead.) -/
theorem no_period_single_chunk (text : List Char) (t : Nat)
    (_hne : text ≠ []) (hnd : '.' ∉ text) (hlt : text.length < t) :
    split_into_chunks text t = [stripChars (text ++ ['.'])] := by
  have h0 : (0:Nat) + text.length < t := by simpa using hlt
  simp [split_into_chunks, splitOnDot, splitDots_of_not_mem text [] hnd,
    chunkLoop, h0, hlt]

/-- Claim C6 (amended, witness): the period-free document `"hello"` at
threshold 100 yields the single chunk `"hello."`. -/
theorem no_period_single_chunk_witness :
    split_into_chunks ("hello".toList) 100 = [stripChars ("hello".toList ++ ['.'])] :=
  no_period_single_chunk ("hello".toList) 100 (by decide) (by decide) (by decide)

/-- Claim C10: for every input text (the empty string included) and every
chunk size, `split_into_chunks` returns at least one chunk: splitting always
yields at least one fragment, the accumulator ends with an appended period
after the loop and is therefore flushed (or a chunk was already flushed). -/
theorem split_into_chunks_ne_nil (text : List Char) (chunk_size : Nat) :
    split_into_chunks text chunk_size ≠ [] :=
  chunkLoop_ne_nil chunk_size (splitOnDot text) [] []
    (Or.inl (splitOnDot_ne_nil text))

theorem stripChars_length_le (l : List Char) : (stripChars l).length ≤ l.length := by
  unfold stripChars
  calc ((l.dropWhile Char.isWhitespace).reverse.dropWhile Char.isWhitespace).reverse.length
      = ((l.dropWhile Char.isWhitespace).reverse.dropWhile Char.isWhitespace).length := by
        simp
    _ ≤ (l.dropWhile Char.isWhitespace).reverse.length :=
        (List.dropWhile_sublist Char.isWhitespace).length_le
    _ = (l.dropWhile Char.isWhitespace).length := by simp
    _ ≤ l.length := (List.dropWhile_sublist Char.isWhitespace).length_le

/-- Shape of a chunk produced by the loop, relative to a pool `P` of sentence
fragments: it is short (length at most `t`) or it is one whole fragment of the
pool, of length at least `t`, with its period re-appended and then stripped. -/
def ChunkOk (t : Nat) (P : List Char → Prop) (c : List Char) : Prop :=
  c.length ≤ t ∨ ∃ s, P s ∧ c = stripChars (s ++ ['.']) ∧ t ≤ s.length

/-- Shape of the accumulator during the loop: empty, short, or one whole
fragment of the pool, of length at least `t`, with its period re-appended. -/
def CurrentOk (t : Nat) (P : List Char → Prop) (cur : List Char) : Prop :=
  cur = [] ∨ cur.length ≤ t ∨ ∃ s, P s ∧ cur = s ++ ['.'] ∧ t ≤ s.length

theorem ChunkOk_of_CurrentOk {t : Nat} {P : List Char → Prop} {cur : List Char}
    (h : CurrentOk t P cur) : ChunkOk t P (stripChars cur) := by
  rcases h with h | h | ⟨s, hs, hcur, hts⟩
  · exact Or.inl (by simp [h, stripChars])
  · exact Or.inl (le_trans (stripChars_length_le cur) h)
  · exact Or.inr ⟨s, hs, by rw [hcur], hts⟩

theorem chunkLoop_bound (t : Nat) (P : List Char → Prop) :
    ∀ (l : List (List Char)) (acc : List (List Char)) (cur : List Char),
      (∀ s ∈ l, P s) → (∀ c ∈ acc, ChunkOk t P c) → CurrentOk t P cur →
      ∀ c ∈ chunkLoop t acc cur l, ChunkOk t P c
  | [], acc, cur, _, hacc, hcur => by
    by_cases hc : cur = []
    · simpa [chunkLoop, hc] using hacc
    · intro c hc2
      simp only [chunkLoop, if_neg hc, List.mem_append, List.mem_singleton] at hc2
      rcases hc2 with hmem | rfl
      · exact hacc c hmem
      · exact ChunkOk_of_CurrentOk hcur
  | s :: rest, acc, cur, hl, hacc, hcur => by
    have hsP : P s := hl s (List.mem_cons_self s rest)
    have hrest : ∀ s2 ∈ rest, P s2 := fun s2 h2 => hl s2 (List.mem_cons_of_mem s h2)
    by_cases h : cur.length + s.length < t
    · -- extend the accumulator; its new length is at most t
      have hcur2 : CurrentOk t P (cur ++ s ++ ['.']) := by
        refine Or.inr (Or.inl ?_)
        simp only [List.length_append, List.length_singleton]
        omega
      simpa [chunkLoop, h] using chunkLoop_bound t P rest acc (cur ++ s ++ ['.']) hrest hacc hcur2
    · -- flush the accumulator, restart from the fragment
      have hacc2 : ∀ c ∈ acc ++ [stripChars cur], ChunkOk t P c := by
        intro c hc2
        rcases List.mem_append.mp hc2 with hmem | hmem
        · exact hacc c hmem
        · rw [List.mem_singleton.mp hmem]
          exact ChunkOk_of_CurrentOk hcur
      have hcur2 : CurrentOk t P (s ++ ['.']) := by
        rcases Nat.lt_or_ge s.length t with hst | hst
        · exact Or.inr (Or.inl (by simp; omega))
        · exact Or.inr (Or.inr ⟨s, hsP, rfl, hst⟩)
      simpa [chunkLoop, h] using
        chunkLoop_bound t P rest (acc ++ [stripChars cur]) (s ++ ['.']) hrest hacc2 hcur2

/-- Claim C2 (counterexample): with threshold 3 and document `"abc"` the
chunk `"abc."` has 4 > 3 characters, yet the only sentence fragment, `"abc"`,
has exactly 3 characters and so is not longer than the threshold: the claim
as stated (exception only for sentences strictly longer than `t`) fails. -/
theorem chunk_bound_strict_counterexample :
    ¬ (∀ c ∈ split_into_chunks ("abc".toList) 3,
        c.length ≤ 3 ∨
          ∃ s ∈ splitOnDot ("abc".toList),
            c = stripChars (s ++ ['.']) ∧ 3 < s.length) := by
  decide

/-- Claim C2 (amended): for every text and every threshold `t > 0`, every
chunk either has at most `t` characters or is a single undivided sentence
fragment of length at least `t` (not necessarily strictly greater), with its
period re-appended and surrounding whitespace stripped. -/
theorem chunk_bound_le (text : List Char) (t : Nat) (_ht : 0 < t) :
    ∀ c ∈ split_into_chunks text t,
      c.length ≤ t ∨
        ∃ s ∈ splitOnDot text, c = stripChars (s ++ ['.']) ∧ t ≤ s.length := by
  intro c hc
  have := chunkLoop_bound t (fun s => s ∈ splitOnDot text) (splitOnDot text) [] []
    (fun _ h => h) (by simp) (Or.inl rfl) c hc
  rcases this with h | ⟨s, hs, heq, hts⟩
  · exact Or.inl h
  · exact Or.inr ⟨s, hs, heq, hts⟩

/-- Claim C2 (amended, witness): at text `"abc"` and threshold 3 the chunk
`"abc."` satisfies the amended bound through its fragment `"abc"` of length
exactly 3. -/
theorem chunk_bound_le_witness :
    ("abc.".toList).length ≤ 3 ∨
      ∃ s ∈ splitOnDot ("abc".toList),
        "abc.".toList = stripChars (s ++ ['.']) ∧ 3 ≤ s.length :=
  chunk_bound_le ("abc".toList) 3 (by decide) ("abc.".toList) (by decide)

theorem mem_dropWhile_of_mem {p : Char → Bool} {c : Char} (hc : p c = false) :
    ∀ l : List Char, c ∈ l → c ∈ l.dropWhile p
  | x :: xs, hmem => by
    by_cases hx : p x
    · rcases List.mem_cons.mp hmem with rfl | hmem2
      · exact absurd hx (by simp [hc])
      · simpa [List.dropWhile, hx] using mem_dropWhile_of_mem hc xs hmem2
    · simpa [List.dropWhile, hx] using hmem

theorem mem_stripChars_of_mem {c : Char} (hc : c.isWhitespace = false)
    {l : List Char} (hmem : c ∈ l) : c ∈ stripChars l := by
  unfold stripChars
  rw [List.mem_reverse]
  exact mem_dropWhile_of_mem hc _
    (List.mem_reverse.mpr (mem_dropWhile_of_mem hc l hmem))

theorem stripChars_ne_nil_of_dot {cur : List Char} (h : '.' ∈ cur) :
    stripChars cur ≠ [] :=
  List.ne_nil_of_mem (mem_stripChars_of_mem (by decide) h)

theorem chunkLoop_drop_one (t : Nat) :
    ∀ (l : List (List Char)) (acc : List (List Char)) (cur : List Char),
      (∀ c ∈ acc.drop 1, c ≠ []) → ((acc = [] ∧ cur = []) ∨ '.' ∈ cur) →
      ∀ c ∈ (chunkLoop t acc cur l).drop 1, c ≠ []
  | [], acc, cur, hacc, hinv => by
    by_cases hc : cur = []
    · simpa [chunkLoop, hc] using hacc
    · have hdot : '.' ∈ cur := by
        rcases hinv with ⟨_, h2⟩ | h2
        · exact absurd h2 hc
        · exact h2
      intro c hc2
      match acc with
      | [] =>
        simp [chunkLoop, hc] at hc2
      | a :: as =>
        simp only [chunkLoop, if_neg hc, List.cons_append, List.drop_succ_cons,
          List.drop_zero, List.mem_append, List.mem_singleton] at hc2
        rcases hc2 with hmem | rfl
        · exact hacc c (by simpa using hmem)
        · exact stripChars_ne_nil_of_dot hdot
  | s :: rest, acc, cur, hacc, hinv => by
    by_cases h : cur.length + s.length < t
    · have hdot : '.' ∈ cur ++ s ++ ['.'] := by simp
      simpa [chunkLoop, h] using
        chunkLoop_drop_one t rest acc (cur ++ s ++ ['.']) hacc (Or.inr hdot)
    · have hacc2 : ∀ c ∈ (acc ++ [stripChars cur]).drop 1, c ≠ [] := by
        match acc with
        | [] => simp
        | a :: as =>
          intro c hc2
          simp only [List.cons_append, List.drop_succ_cons, List.drop_zero,
            List.mem_append, List.mem_singleton] at hc2
          rcases hc2 with hmem | rfl
          · exact hacc c (by simpa using hmem)
          · have hdot : '.' ∈ cur := by
              rcases hinv with ⟨h2, _⟩ | h2
              · exact absurd h2 (by simp)
              · exact h2
            exact stripChars_ne_nil_of_dot hdot
      simpa [chunkLoop, h] using
        chunkLoop_drop_one t rest (acc ++ [stripChars cur]) (s ++ ['.']) hacc2
          (Or.inr (by simp))

/-- Claim C3 (counterexample): with document `"abc"` and threshold 3 the
first sentence fragment already reaches the threshold, so the initial empty
accumulator is flushed and the returned sequence contains the empty chunk. -/
theorem chunk_nonempty_counterexample :
    ¬ (∀ c ∈ split_into_chunks ("abc".toList) 3, c ≠ []) := by
  decide

/-- Claim C3 (amended): for every text and threshold, every chunk after the
first is non-empty; only the first chunk can be empty (it is the flush of the
initial empty accumulator, which happens when the first sentence fragment
already reaches the threshold). -/
theorem chunk_tail_nonempty (text : List Char) (t : Nat) :
    ∀ c ∈ (split_into_chunks text t).drop 1, c ≠ [] :=
  chunkLoop_drop_one t (splitOnDot text) [] [] (by simp) (Or.inl ⟨rfl, rfl⟩)

/-- Claim C3 (amended, witness): in `split_into_chunks "abc" 3 = ["", "abc."]`
the chunk after the first, `"abc."`, is non-empty. -/
theorem chunk_tail_nonempty_witness : "abc.".toList ≠ ([] : List Char) :=
  chunk_tail_nonempty ("abc".toList) 3 ("abc.".toList) (by decide)

/-- A character of the document's core content: neither whitespace nor a
period.  Periods are both split away and re-inserted by the chunker and
whitespace is stripped, so coverage is stated on the remaining characters. -/
def keepCore (c : Char) : Bool := !c.isWhitespace && !(c = '.')

/-- The core content of a text: its characters with whitespace and periods
removed, in order. -/
def coreChars (l : List Char) : List Char := l.filter keepCore

theorem coreChars_append (l m : List Char) :
    coreChars (l ++ m) = coreChars l ++ coreChars m := by
  simp [coreChars]

theorem filter_dropWhile_of_imp {p q : Char → Bool}
    (h : ∀ c, q c = true → p c = false) :
    ∀ l : List Char, (l.dropWhile q).filter p = l.filter p
  | [] => rfl
  | x :: xs => by
    by_cases hx : q x
    · rw [List.dropWhile_cons_of_pos hx, filter_dropWhile_of_imp h xs,
        List.filter_cons_of_neg (by simp [h x hx])]
    · rw [List.dropWhile_cons_of_neg hx]

theorem coreChars_stripChars (l : List Char) : coreChars (stripChars l) = coreChars l := by
  have himp : ∀ c : Char, c.isWhitespace = true → keepCore c = false := by
    intro c hc
    simp [keepCore, hc]
  unfold stripChars coreChars
  rw [List.filter_reverse, filter_dropWhile_of_imp himp, List.filter_reverse,
    List.reverse_reverse, filter_dropWhile_of_imp himp]

theorem coreChars_dot_cons (l : List Char) : coreChars ('.' :: l) = coreChars l := by
  simp [coreChars, List.filter_cons_of_neg, keepCore]

theorem coreChars_nil : coreChars [] = [] := rfl

theorem coreChars_dot : coreChars ['.'] = [] := by decide

theorem splitDots_coreChars :
    ∀ (l acc : List Char),
      ((splitDots l acc).map coreChars).flatten = coreChars acc.reverse ++ coreChars l
  | [], acc => by simp [splitDots, coreChars]
  | c :: cs, acc => by
    by_cases hc : c = '.'
    · subst hc
      simp only [splitDots, if_true, List.map_cons, List.flatten_cons,
        coreChars_dot_cons]
      rw [splitDots_coreChars cs []]
      simp [coreChars_nil]
    · simp only [splitDots, if_neg hc, splitDots_coreChars cs (c :: acc),
        List.reverse_cons, coreChars_append]
      by_cases hk : keepCore c
      · simp [coreChars, List.filter_cons_of_pos hk]
      · simp [coreChars, List.filter_cons_of_neg (by simpa using hk)]

theorem chunkLoop_coreChars (t : Nat) :
    ∀ (l : List (List Char)) (acc : List (List Char)) (cur : List Char),
      coreChars (chunkLoop t acc cur l).flatten =
        coreChars acc.flatten ++ coreChars cur ++ (l.map coreChars).flatten
  | [], acc, cur => by
    by_cases hc : cur = []
    · simp [chunkLoop, hc, coreChars]
    · simp [chunkLoop, hc, coreChars_append, coreChars_stripChars]
  | s :: rest, acc, cur => by
    by_cases h : cur.length + s.length < t
    · simp only [chunkLoop, if_pos h, chunkLoop_coreChars t rest acc (cur ++ s ++ ['.'])]
      simp [coreChars_append, coreChars_dot, List.append_assoc]
    · simp only [chunkLoop, if_neg h,
        chunkLoop_coreChars t rest (acc ++ [stripChars cur]) (s ++ ['.'])]
      simp [coreChars_append, coreChars_stripChars, coreChars_dot,
        List.append_assoc]

/-- Claim C5: for every threshold, and every non-empty document containing at
least one period, the chunker returns at least one chunk, and the
concatenation of the chunks has the same core content (characters that are
neither periods nor whitespace, in order) as the original document:
coverage holds up to inserted periods and stripped whitespace. -/
theorem chunk_coverage (text : List Char) (t : Nat)
    (_hne : text ≠ []) (_hdot : '.' ∈ text) :
    split_into_chunks text t ≠ [] ∧
      coreChars (split_into_chunks text t).flatten = coreChars text := by
  refine ⟨split_into_chunks_ne_nil text t, ?_⟩
  have h := chunkLoop_coreChars t (splitOnDot text) [] []
  have h2 := splitDots_coreChars text []
  simp only [split_into_chunks, splitOnDot] at h ⊢
  rw [h, h2]
  simp [coreChars]

/-- Claim C5 (witness): on the document `"a. b"` with threshold 100 the
returned chunks are non-empty and their concatenation has core content
`"ab"`, the same as the document. -/
theorem chunk_coverage_witness :
    split_into_chunks ("a. b".toList) 100 ≠ [] ∧
      coreChars (split_into_chunks ("a. b".toList) 100).flatten =
        coreChars ("a. b".toList) :=
  chunk_coverage ("a. b".toList) 100 (by decide) (by decide)

/-- Dot product of two embedding vectors, truncating to the shorter one. -/
def dotProd : List ℤ → List ℤ → ℤ
  | [], _ => 0
  | _, [] => 0
  | x :: xs, y :: ys => x * y + dotProd xs ys

/-- Squared Euclidean norm of an embedding vector. -/
def normSq (v : List ℤ) : ℤ := dotProd v v

theorem normSq_nonneg : ∀ v : List ℤ, 0 ≤ normSq v
  | [] => le_refl 0
  | x :: xs => by
    have h := normSq_nonneg xs
    simp only [normSq, dotProd] at h ⊢
    nlinarith [sq_nonneg x]

theorem cauchy_schwarz_step (x y d A B : ℤ) (hA : 0 ≤ A) (hB : 0 ≤ B)
    (ih : d ^ 2 ≤ A * B) : (x * y + d) ^ 2 ≤ (x * x + A) * (y * y + B) := by
  rcases eq_or_lt_of_le hA with hA0 | hApos
  · have hd2 : d ^ 2 = 0 :=
      le_antisymm (by nlinarith) (sq_nonneg d)
    have hd : d = 0 := by simpa using hd2
    subst hd
    nlinarith [mul_nonneg (sq_nonneg x) hB]
  · nlinarith [sq_nonneg (y * A - x * d),
      mul_nonneg (sq_nonneg x) (sub_nonneg.mpr ih),
      mul_nonneg hA (sub_nonneg.mpr ih)]

/-- Cauchy-Schwarz for list dot products over ℤ. -/
theorem dotProd_sq_le : ∀ a b : List ℤ, dotProd a b ^ 2 ≤ normSq a * normSq b
  | [], b => by simp [dotProd, normSq]
  | x :: xs, [] => by
    simp only [dotProd, normSq]
    nlinarith [normSq_nonneg (x :: xs), sq_nonneg x, normSq_nonneg xs]
  | x :: xs, y :: ys => by
    have ih := dotProd_sq_le xs ys
    have hA := normSq_nonneg xs
    have hB := normSq_nonneg ys
    simp only [normSq, dotProd] at ih hA hB ⊢
    exact cauchy_schwarz_step x y (dotProd xs ys) (dotProd xs xs) (dotProd ys ys)
      hA hB ih

/-- Exact comparison of two cosine similarities against a common query:
given the dot products `da`, `db` of vectors `a`, `b` with the query and
their squared norms `na`, `nb` (all norms assumed positive), decides
`da / sqrt na < db / sqrt nb`, i.e. `cos(a, q) < cos(b, q)`, by sign
analysis and comparison of cross-multiplied squares. -/
def cosLtB (da na db nb : ℤ) : Bool :=
  if 0 ≤ da then
    if 0 ≤ db then decide (da ^ 2 * nb < db ^ 2 * na) else false
  else
    if 0 ≤ db then true else decide (db ^ 2 * na < da ^ 2 * nb)

/-- The errors of the spec's retrieval taxonomy that concern `retrieve`. -/
inductive RetrieveError where
  | EmptyCorpus : RetrieveError
  | DegenerateEmbedding : RetrieveError
deriving DecidableEq

/-- A corpus pair: the chunk text with its embedding vector. -/
abbrev CorpusEntry := List Char × List ℤ

/-- Whether an entry's cosine similarity to the query is not exceeded by any
entry of the corpus, so that the entry at the first index of maximal
similarity is the first entry satisfying this test (stable argmax). -/
def simMaximal (corpus : List CorpusEntry) (qEmb : List ℤ) (p : CorpusEntry) : Bool :=
  corpus.all fun p2 =>
    !cosLtB (dotProd p.2 qEmb) (normSq p.2) (dotProd p2.2 qEmb) (normSq p2.2)

/-- Modelled from the spec: the source `retrieve_context`
(deepDocGevalGolden.py lines 77-81) is
`chunks[np.argmax(cosine_similarity(query_emb, chunk_embeddings))]` with no
error handling; the `EmptyCorpus` and `DegenerateEmbedding` failures the spec
prescribes for an empty corpus and for zero-norm vectors exist only in the
spec, not in the source.  Embeddings are exact integer-coordinate vectors; the chunk at
the first index of maximal cosine similarity is selected by taking the first
entry whose similarity no entry exceeds (`cosLtB` compares similarities
exactly, with the unreachable no-maximum fallback returning the first
chunk). -/
def retrieve (corpus : List CorpusEntry) (qEmb : List ℤ) :
    Except RetrieveError (List Char) :=
  match corpus with
  | [] => Except.error RetrieveError.EmptyCorpus
  | c :: rest =>
    if normSq qEmb = 0 ∨ ∃ p ∈ c :: rest, normSq p.2 = 0 then
      Except.error RetrieveError.DegenerateEmbedding
    else
      match (c :: rest).find? (simMaximal (c :: rest) qEmb) with
      | some p => Except.ok p.1
      | none => Except.ok c.1

instance : DecidableEq (Except RetrieveError (List Char)) := fun a b =>
  match a, b with
  | .ok x, .ok y => decidable_of_iff (x = y) (by simp)
  | .error x, .error y => decidable_of_iff (x = y) (by simp)
  | .ok _, .error _ => isFalse (by simp)
  | .error _, .ok _ => isFalse (by simp)

example : retrieve [(['a'], ([2] : List ℤ)), (['b'], [1])] [1] = Except.ok ['a'] := by decide

example : retrieve [(['a'], ([1] : List ℤ)), (['b'], [1, 1])] [0] =
    Except.error RetrieveError.DegenerateEmbedding := by decide

/-- Claim C7: for every query embedding, retrieval against a corpus of zero
chunks fails with the explicit `EmptyCorpus` error (and not by indexing out
of bounds: the embedding is not even inspected). -/
theorem retrieve_empty_corpus (qEmb : List ℤ) :
    retrieve [] qEmb = Except.error RetrieveError.EmptyCorpus := rfl

/-- Claim C9: when the corpus is non-empty (so that the `EmptyCorpus` check
does not fire first) and the query embedding has zero squared norm, retrieval
fails with the `DegenerateEmbedding` error instead of dividing by the zero
magnitude inside the cosine similarity. -/
theorem retrieve_zero_query_degenerate (c : CorpusEntry) (rest : List CorpusEntry)
    (qEmb : List ℤ) (h : normSq qEmb = 0) :
    retrieve (c :: rest) qEmb = Except.error RetrieveError.DegenerateEmbedding := by
  simp [retrieve, h]

/-- Claim C9 (witness): the all-zero query embedding `[0]` against the
one-chunk corpus `[("a", [1])]` fails with `DegenerateEmbedding`. -/
theorem retrieve_zero_query_degenerate_witness :
    retrieve [(['a'], ([1] : List ℤ))] [0] =
      Except.error RetrieveError.DegenerateEmbedding :=
  retrieve_zero_query_degenerate (['a'], [1]) [] [0] (by decide)

theorem cosLtB_self_false {N d2 n2 : ℤ} (hN : 0 < N) (hcs : d2 ^ 2 ≤ n2 * N) :
    cosLtB N N d2 n2 = false := by
  unfold cosLtB
  rw [if_pos hN.le]
  by_cases hd : 0 ≤ d2
  · rw [if_pos hd]
    simp only [decide_eq_false_iff_not, not_lt]
    nlinarith
  · rw [if_neg hd]

theorem cosLtB_false_max {d nn N : ℤ} (hN : 0 < N)
    (h : cosLtB d nn N N = false) (hcs : d ^ 2 ≤ nn * N) (hnn : 0 < nn) :
    0 < d ∧ d ^ 2 = nn * N := by
  unfold cosLtB at h
  by_cases hd : 0 ≤ d
  · rw [if_pos hd, if_pos hN.le] at h
    have hge : N ^ 2 * nn ≤ d ^ 2 * N := by
      have := of_decide_eq_false h
      linarith [not_lt.mp this]
    have h1 : d ^ 2 * N ≤ nn * N * N := by nlinarith
    have h2 : nn * N * N ≤ d ^ 2 * N := by nlinarith
    have heq : d ^ 2 * N = (nn * N) * N := le_antisymm h1 (by linarith)
    have heq2 : d ^ 2 = nn * N := mul_right_cancel₀ hN.ne' heq
    have hdne : d ≠ 0 := by
      intro h0
      rw [h0] at heq2
      nlinarith
    exact ⟨lt_of_le_of_ne hd (Ne.symm hdne), heq2⟩
  · rw [if_neg hd, if_pos hN.le] at h
    exact absurd h (by simp)

/-- Claim C8 (counterexample): the corpus `[("a", [2]), ("b", [1])]` with
query embedding `[1]` has the chunk `"b"` whose embedding is identical to the
query embedding, yet retrieval returns `"a"`: the earlier chunk's embedding
`[2]` is a positive multiple of the query's, its cosine similarity is also
exactly 1, and the stable argmax picks the first maximal index. -/
theorem exact_match_counterexample :
    (['b'], ([1] : List ℤ)) ∈ [(['a'], ([2] : List ℤ)), (['b'], [1])] ∧
      retrieve [(['a'], ([2] : List ℤ)), (['b'], [1])] [1] ≠ Except.ok ['b'] := by
  decide

/-- Claim C8 (amended): over a corpus of chunks with nonzero-norm embeddings,
if some chunk's embedding is identical to the query embedding then retrieval
succeeds and returns a chunk whose embedding has cosine similarity exactly 1
with the query (a positive dot product whose square equals the product of the
squared norms); the identical chunk itself is returned whenever it is the
first chunk attaining the maximal similarity. -/
theorem retrieve_exact_match_cos_one (corpus : List CorpusEntry) (qEmb : List ℤ)
    (c0 : List Char) (hmem : (c0, qEmb) ∈ corpus)
    (hnz : ∀ p ∈ corpus, normSq p.2 ≠ 0) :
    ∃ ch emb, retrieve corpus qEmb = Except.ok ch ∧ (ch, emb) ∈ corpus ∧
      0 < dotProd emb qEmb ∧
      dotProd emb qEmb ^ 2 = normSq emb * normSq qEmb := by
  match corpus, hmem with
  | c :: rest, hmem =>
    have hq : normSq qEmb ≠ 0 := by
      have := hnz (c0, qEmb) hmem
      simpa using this
    have hqpos : 0 < normSq qEmb := lt_of_le_of_ne (normSq_nonneg qEmb) (Ne.symm hq)
    have hcond : ¬(normSq qEmb = 0 ∨ ∃ p ∈ c :: rest, normSq p.2 = 0) := by
      push_neg
      exact ⟨hq, fun p hp => hnz p hp⟩
    have hmax : simMaximal (c :: rest) qEmb (c0, qEmb) = true := by
      simp only [simMaximal, List.all_eq_true, Bool.not_eq_eq_eq_not, Bool.not_true]
      intro p2 hp2
      show cosLtB (normSq qEmb) (normSq qEmb) (dotProd p2.2 qEmb) (normSq p2.2) = false
      exact cosLtB_self_false hqpos (dotProd_sq_le p2.2 qEmb)
    obtain ⟨pstar, hfind⟩ :
        ∃ p, (c :: rest).find? (simMaximal (c :: rest) qEmb) = some p :=
      Option.isSome_iff_exists.mp
        (List.find?_isSome.mpr ⟨(c0, qEmb), hmem, hmax⟩)
    have hmemstar : pstar ∈ c :: rest := List.mem_of_find?_eq_some hfind
    have hpred : simMaximal (c :: rest) qEmb pstar = true := List.find?_some hfind
    have hnotlt :
        cosLtB (dotProd pstar.2 qEmb) (normSq pstar.2) (normSq qEmb) (normSq qEmb) =
          false := by
      simp only [simMaximal, List.all_eq_true, Bool.not_eq_eq_eq_not, Bool.not_true]
        at hpred
      have := hpred (c0, qEmb) hmem
      simpa [normSq] using this
    have hnnstar : 0 < normSq pstar.2 :=
      lt_of_le_of_ne (normSq_nonneg pstar.2) (Ne.symm (hnz pstar hmemstar))
    have hkey := cosLtB_false_max hqpos hnotlt (dotProd_sq_le pstar.2 qEmb) hnnstar
    have hret : retrieve (c :: rest) qEmb = Except.ok pstar.1 := by
      simp only [retrieve, if_neg hcond, hfind]
    exact ⟨pstar.1, pstar.2, hret, by simpa using hmemstar, hkey.1, hkey.2⟩

/-- Claim C8 (amended, witness): on the one-entry corpus `[("a", [1])]` with
query embedding `[1]`, retrieval returns a chunk whose embedding has cosine
similarity exactly 1 with the query. -/
theorem retrieve_exact_match_cos_one_witness :
    ∃ ch emb, retrieve [(['a'], ([1] : List ℤ))] [1] = Except.ok ch ∧
      (ch, emb) ∈ [(['a'], ([1] : List ℤ))] ∧ 0 < dotProd emb [1] ∧
      dotProd emb [1] ^ 2 = normSq emb * normSq [1] :=
  retrieve_exact_match_cos_one [(['a'], [1])] [1] ['a'] (by decide) (by decide)


